import Mathlib

/-!
Verification of the heredity Bayesian-inference program (`heredity.py`).

The program enumerates joint assignments of (gene count, trait) over a
pedigree, scores each with `joint_probability`, accumulates per-person
marginals with `update`, and rescales them with `normalize`.

The embedding below follows the Python source.  Python floats are modelled
as rationals (`ℚ`), sets of names as `Finset String`, and the `people`
dictionary as an association list `List (String × Person)`.  Multiplication
and addition over `ℚ` are commutative, so set iteration order in the source
(over `set` objects and dict keys) is modelled by `Finset.prod` / list folds
without loss.
-/

namespace Heredity

/-- One record of the `people` dictionary: optional mother name, optional
father name, optional observed trait (`load_data` stores `None` for blanks). -/
structure Person where
  mother : Option String
  father : Option String
  trait : Option Bool
deriving DecidableEq, Repr

/-- The `people` dictionary: names mapped to records, in insertion order. -/
abbrev Pedigree := List (String × Person)

/-- One hypothesis visited by `main`'s triple loop: the set `one_gene`,
the set `two_genes`, and the set `have_trait`. -/
structure Hyp where
  one : Finset String
  two : Finset String
  ht : Finset String
deriving DecidableEq

/-- `PROBS["gene"]`: unconditional probabilities for having the gene. -/
def PROBS_gene : Nat → ℚ
  | 2 => 1/100
  | 1 => 3/100
  | 0 => 96/100
  | _ => 0

/-- `PROBS["trait"]`: probability of the trait given gene count. -/
def PROBS_trait : Nat → Bool → ℚ
  | 2, true => 65/100
  | 2, false => 35/100
  | 1, true => 56/100
  | 1, false => 44/100
  | 0, true => 1/100
  | 0, false => 99/100
  | _, _ => 0

/-- `PROBS["mutation"]`: the mutation probability. -/
def PROBS_mutation : ℚ := 1/100

/-- Python membership test `x in s` where `x` may be `None` (a parent
reference): `None in s` is `False` for a set of strings. -/
def optMem (x : Option String) (s : Finset String) : Bool :=
  match x with
  | some n => n ∈ s
  | none => false

/-- The gene count a hypothesis assigns to a name: `1` if in `one_gene`,
else `2` if in `two_genes`, else `0` (the classification order used by
every `if/elif/else` chain in `joint_probability`). -/
def geneCount (one two : Finset String) (n : String) : Nat :=
  if n ∈ one then 1 else if n ∈ two then 2 else 0

/-- The `momTemp`/`dadTemp` expression of the `one_gene` and `two_genes`
loops of `joint_probability` (`heredity.py:163-175`): the probability that
the given parent transmits the gene. -/
def transmitProb (one two : Finset String) (parent : Option String) : ℚ :=
  if optMem parent one then (1/2) * (1 - PROBS_mutation) + (1/2) * PROBS_mutation
  else if optMem parent two then 1 - PROBS_mutation
  else PROBS_mutation

/-- The `momTemp`/`dadTemp` expression of the zero-gene loop of
`joint_probability` (`heredity.py:241-257`): the probability that the given
parent does not transmit the gene. -/
def noTransmitProb (one two : Finset String) (parent : Option String) : ℚ :=
  if optMem parent one then (1/2) * (1 - PROBS_mutation) + (1/2) * PROBS_mutation
  else if optMem parent two then PROBS_mutation
  else 1 - PROBS_mutation

/-- `childProb` before the trait multiplication, for a child with parents in
the `one_gene` loop (`heredity.py:178`). -/
def oneChildGene (one two : Finset String) (mo fa : Option String) : ℚ :=
  transmitProb one two mo * (1 - transmitProb one two fa) +
    transmitProb one two fa * (1 - transmitProb one two mo)

/-- `childProb` before the trait multiplication, for a child with parents in
the `two_genes` loop (`heredity.py:215`). -/
def twoChildGene (one two : Finset String) (mo fa : Option String) : ℚ :=
  transmitProb one two mo * transmitProb one two fa

/-- `childProb` before the trait multiplication, for a child with parents in
the zero-gene loop (`heredity.py:261`). -/
def zeroChildGene (one two : Finset String) (mo fa : Option String) : ℚ :=
  noTransmitProb one two mo * noTransmitProb one two fa

/-- Dictionary lookup `people[person]`; names outside the dictionary get a
parentless, evidence-free record (such lookups never occur in `main`). -/
def lookupPerson (ped : Pedigree) (n : String) : Person :=
  (ped.lookup n).getD ⟨none, none, none⟩

/-- The factor appended to `probsToMultiply` for a person of `one_gene`
(`heredity.py:150-185`). -/
def oneGeneFactor (ped : Pedigree) (h : Hyp) (n : String) : ℚ :=
  let pr := lookupPerson ped n
  if pr.mother = none ∧ pr.father = none then
    PROBS_gene 1 * PROBS_trait 1 (n ∈ h.ht)
  else
    oneChildGene h.one h.two pr.mother pr.father * PROBS_trait 1 (n ∈ h.ht)

/-- The factor appended to `probsToMultiply` for a person of `two_genes`
(`heredity.py:188-222`). -/
def twoGeneFactor (ped : Pedigree) (h : Hyp) (n : String) : ℚ :=
  let pr := lookupPerson ped n
  if pr.mother = none ∧ pr.father = none then
    PROBS_gene 2 * PROBS_trait 2 (n ∈ h.ht)
  else
    twoChildGene h.one h.two pr.mother pr.father * PROBS_trait 2 (n ∈ h.ht)

/-- The factor appended to `probsToMultiply` for a person in neither gene
set (`heredity.py:225-268`). -/
def zeroGeneFactor (ped : Pedigree) (h : Hyp) (n : String) : ℚ :=
  let pr := lookupPerson ped n
  if pr.mother = none ∧ pr.father = none then
    PROBS_gene 0 * PROBS_trait 0 (n ∈ h.ht)
  else
    zeroChildGene h.one h.two pr.mother pr.father * PROBS_trait 0 (n ∈ h.ht)

/-- `joint_probability(people, one_gene, two_genes, have_trait)`
(`heredity.py:132-269`): the product of the factors collected by the three
loops (over `one_gene`, over `two_genes`, and over the remaining dict keys). -/
def joint_probability (ped : Pedigree) (h : Hyp) : ℚ :=
  (∏ n ∈ h.one, oneGeneFactor ped h n) *
    (∏ n ∈ h.two, twoGeneFactor ped h n) *
    (((ped.map Prod.fst).filter
        (fun q => decide (q ∉ h.one ∧ q ∉ h.two))).map (zeroGeneFactor ped h)).prod

/-- `powerset(s)` (`heredity.py:120-129`): the list of all subsets of `s`;
for a duplicate-free name list every subset appears exactly once. -/
def powerset (l : List String) : List (Finset String) :=
  l.sublists.map List.toFinset

/-- The `fails_evidence` check of `main` (`heredity.py:69-73`): some person
has observed trait evidence that disagrees with membership in `have_trait`. -/
def fails_evidence (ped : Pedigree) (ht : Finset String) : Bool :=
  (ped.map Prod.fst).any fun n =>
    match (lookupPerson ped n).trait with
    | some b => b != decide (n ∈ ht)
    | none => false

/-- The hypotheses visited by `main`'s loops (`heredity.py:64-83`), in
order: evidence-consistent `have_trait` subsets, then `one_gene` subsets,
then `two_genes` subsets of the remaining names. -/
def enumHyps (ped : Pedigree) : List Hyp :=
  let names := ped.map Prod.fst
  ((powerset names).filter (fun ht => !fails_evidence ped ht)).flatMap fun ht =>
    (powerset names).flatMap fun one =>
      (powerset (names.filter (fun q => decide (q ∉ one)))).map fun two =>
        ⟨one, two, ht⟩

/-- One person's entry in the `probabilities` dictionary of `main`
(`heredity.py:49-62`): three gene bins and two trait bins. -/
structure Marginal where
  gene2 : ℚ
  gene1 : ℚ
  gene0 : ℚ
  traitT : ℚ
  traitF : ℚ
deriving DecidableEq, Repr

/-- The all-zero initial entry of the `probabilities` dictionary. -/
def initMarginal : Marginal := ⟨0, 0, 0, 0, 0⟩

/-- The body of `update`'s loop for one person (`heredity.py:281-292`):
add `p` into the gene bin selected by `one_gene`/`two_genes` membership and
into the trait bin selected by `have_trait` membership. -/
def updatePerson (m : Marginal) (h : Hyp) (n : String) (p : ℚ) : Marginal :=
  let m1 :=
    if n ∈ h.one then { m with gene1 := m.gene1 + p }
    else if n ∈ h.two then { m with gene2 := m.gene2 + p }
    else { m with gene0 := m.gene0 + p }
  if n ∈ h.ht then { m1 with traitT := m1.traitT + p }
  else { m1 with traitF := m1.traitF + p }

/-- `update(probabilities, one_gene, two_genes, have_trait, p)`
(`heredity.py:273-292`): every person's entry is updated. -/
def update (probs : String → Marginal) (h : Hyp) (p : ℚ) : String → Marginal :=
  fun n => updatePerson (probs n) h n p

/-- The accumulation performed by `main`'s loops (`heredity.py:64-83`):
fold `update` with each hypothesis's joint probability over the whole
enumeration, starting from the all-zero table. -/
def accumulate (ped : Pedigree) : String → Marginal :=
  (enumHyps ped).foldl
    (fun probs h => update probs h (joint_probability ped h))
    (fun _ => initMarginal)

/-- The body of `normalize`'s loop for one person (`heredity.py:303-313`):
scale the gene bins by `1 / geneTotal` and the trait bins by
`1 / traitTotal`.  Python raises `ZeroDivisionError` when a total is zero;
that failure is modelled by `none`. -/
def normalizePerson (m : Marginal) : Option Marginal :=
  let geneTotal := m.gene2 + m.gene1 + m.gene0
  if geneTotal = 0 then none
  else
    let sfg := 1 / geneTotal
    let traitTotal := m.traitT + m.traitF
    if traitTotal = 0 then none
    else
      let sft := 1 / traitTotal
      some ⟨m.gene2 * sfg, m.gene1 * sfg, m.gene0 * sfg,
            m.traitT * sft, m.traitF * sft⟩

/-- The person-by-person loop of `normalize`: normalize each person's
entry in order; the first zero total aborts the whole run. -/
def normalizeLoop (f : String → Option Marginal) :
    List String → Option (List (String × Marginal))
  | [] => some []
  | n :: ns =>
    match f n, normalizeLoop f ns with
    | some m, some l => some ((n, m) :: l)
    | _, _ => none

/-- `normalize(probabilities)` (`heredity.py:295-313`): normalize every
person's entry; the first zero total aborts the program
(`ZeroDivisionError`), modelled by `none`. -/
def normalize (ped : Pedigree) (probs : String → Marginal) :
    Option (List (String × Marginal)) :=
  normalizeLoop (fun n => normalizePerson (probs n)) (ped.map Prod.fst)

/-- The full inference pipeline of `main` (`heredity.py:64-86`): accumulate
every enumerated hypothesis, then normalize. -/
def runInference (ped : Pedigree) : Option (List (String × Marginal)) :=
  normalize ped (accumulate ped)

/-- The transmit-probability table of the specification (§4.2), as a
function of the parent's assigned gene count: `1 - mutationRate` for two
copies, `0.5·(1 - mutationRate) + 0.5·mutationRate` for one copy,
`mutationRate` for zero copies. -/
def specTransmitProb (g : Nat) : ℚ :=
  if g = 2 then 1 - PROBS_mutation
  else if g = 1 then (1/2) * (1 - PROBS_mutation) + (1/2) * PROBS_mutation
  else PROBS_mutation

/-- The per-person gene-count factor of the spec's product decomposition:
the prior for a founder, otherwise the child-gene probability for the
assigned count. -/
def personGeneProb (ped : Pedigree) (one two : Finset String) (n : String) : ℚ :=
  let pr := lookupPerson ped n
  if pr.mother = none ∧ pr.father = none then PROBS_gene (geneCount one two n)
  else
    match geneCount one two n with
    | 1 => oneChildGene one two pr.mother pr.father
    | 2 => twoChildGene one two pr.mother pr.father
    | _ => zeroChildGene one two pr.mother pr.father

/-- The per-person trait factor of the spec's product decomposition:
`traitGivenGene[assignedGeneCount][assignedTrait]`. -/
def personTraitProb (one two ht : Finset String) (n : String) : ℚ :=
  PROBS_trait (geneCount one two n) (n ∈ ht)

/-- Example input with a single-parent record whose one recorded parent
name resolves to nobody. -/
def singleParentPed : Pedigree := [("X", ⟨some "ghost", none, none⟩)]

/-- Example input with a single founder and no trait evidence. -/
def singleFounderPed : Pedigree := [("Harry", ⟨none, none, none⟩)]

lemma transmitProb_eq_spec (one two : Finset String) (n : String) :
    transmitProb one two (some n) = specTransmitProb (geneCount one two n) := by
  simp only [transmitProb, specTransmitProb, geneCount, optMem]
  by_cases h1 : n ∈ one <;> by_cases h2 : n ∈ two <;> simp [h1, h2]

lemma noTransmitProb_eq_spec (one two : Finset String) (n : String) :
    noTransmitProb one two (some n) = 1 - specTransmitProb (geneCount one two n) := by
  simp only [noTransmitProb, specTransmitProb, geneCount, optMem]
  by_cases h1 : n ∈ one <;> by_cases h2 : n ∈ two <;>
    simp [h1, h2, PROBS_mutation] <;> norm_num

/-- C1: for a child with both parents recorded, the gene-count terms used
by `joint_probability` follow the spec's formulas: each parent's transmit
probability is the spec's table applied to that parent's assigned gene
count, and the child terms for assigned count 0, 1, 2 are
`(1 - m)(1 - f)`, `m(1 - f) + f(1 - m)` and `m·f` respectively. -/
theorem geneFactor_formulas_match_spec (one two : Finset String) (mo fa : String) :
    transmitProb one two (some mo) = specTransmitProb (geneCount one two mo) ∧
    zeroChildGene one two (some mo) (some fa) =
      (1 - specTransmitProb (geneCount one two mo)) *
        (1 - specTransmitProb (geneCount one two fa)) ∧
    oneChildGene one two (some mo) (some fa) =
      specTransmitProb (geneCount one two mo) *
          (1 - specTransmitProb (geneCount one two fa)) +
        specTransmitProb (geneCount one two fa) *
          (1 - specTransmitProb (geneCount one two mo)) ∧
    twoChildGene one two (some mo) (some fa) =
      specTransmitProb (geneCount one two mo) * specTransmitProb (geneCount one two fa) := by
  refine ⟨transmitProb_eq_spec one two mo, ?_, ?_, ?_⟩ <;>
    simp only [zeroChildGene, oneChildGene, twoChildGene,
      noTransmitProb_eq_spec, transmitProb_eq_spec]

/-- C10: `joint_probability` classifies a parent reference only by set
membership: a `None` parent reference and a name in neither gene set get
the same transmit probability, namely the zero-copy value `mutationRate`,
and inference on a single-parent record with an unresolvable parent name
still returns an ordinary probability. -/
theorem missing_or_unknown_parent_is_zero_copy (one two : Finset String) (n : String)
    (h1 : n ∉ one) (h2 : n ∉ two) :
    transmitProb one two none = PROBS_mutation ∧
    noTransmitProb one two none = 1 - PROBS_mutation ∧
    transmitProb one two (some n) = PROBS_mutation ∧
    noTransmitProb one two (some n) = 1 - PROBS_mutation ∧
    joint_probability singleParentPed ⟨∅, {"X"}, ∅⟩ = 7/200000 := by
  refine ⟨?_, ?_, ?_, ?_, ?_⟩
  · simp [transmitProb, optMem]
  · simp [noTransmitProb, optMem]
  · simp [transmitProb, optMem, h1, h2]
  · simp [noTransmitProb, optMem, h1, h2]
  · simp [joint_probability, singleParentPed, oneGeneFactor, twoGeneFactor, zeroGeneFactor,
      oneChildGene, twoChildGene, zeroChildGene, transmitProb, noTransmitProb, optMem,
      lookupPerson, PROBS_gene, PROBS_trait, PROBS_mutation]
    norm_num

/-- Witness for C10 at a concrete instance. -/
theorem missing_or_unknown_parent_is_zero_copy_witness :
    transmitProb ∅ ∅ none = PROBS_mutation ∧
    noTransmitProb ∅ ∅ none = 1 - PROBS_mutation ∧
    transmitProb ∅ ∅ (some "a") = PROBS_mutation ∧
    noTransmitProb ∅ ∅ (some "a") = 1 - PROBS_mutation ∧
    joint_probability singleParentPed ⟨∅, {"X"}, ∅⟩ = 7/200000 :=
  missing_or_unknown_parent_is_zero_copy ∅ ∅ "a"
    (Finset.not_mem_empty "a") (Finset.not_mem_empty "a")

/-- C6 (code defect): on a zero accumulated total the normalizer performs
`1 / 0`, which aborts the program with an uncaught `ZeroDivisionError`
(modelled by `none`) instead of reporting an `EvidenceUnsatisfiable` error;
no NaN or infinite value is produced. -/
theorem normalize_zero_total_aborts :
    normalizePerson initMarginal = none ∧
    normalize [("p", ⟨none, none, none⟩)] (fun _ => initMarginal) = none := by
  constructor
  · simp [normalizePerson, initMarginal]
  · simp [normalize, normalizeLoop, normalizePerson, initMarginal]

/-- C7 (code defect): the program performs no pedigree validation: on a
record with exactly one parent set, that parent's name resolving to nobody,
inference silently proceeds and returns a posterior. -/
theorem invalid_pedigree_silently_processed :
    runInference singleParentPed =
      some [("X", ⟨1/10000, 99/5000, 9801/10000, 10477/500000, 489523/500000⟩)] := by
  simp [runInference, normalize, normalizeLoop, accumulate, enumHyps, powerset, fails_evidence,
    joint_probability, update, updatePerson, normalizePerson, initMarginal, lookupPerson,
    singleParentPed, oneGeneFactor, twoGeneFactor, zeroGeneFactor, oneChildGene, twoChildGene,
    zeroChildGene, transmitProb, noTransmitProb, optMem, PROBS_gene, PROBS_trait, PROBS_mutation]
  norm_num

/-- C8: for a single founder with no trait evidence, the normalized gene
posterior equals the prior `{0: 0.96, 1: 0.03, 2: 0.01}` and the trait
posterior is `{True: 0.0329, False: 0.9671}`. -/
theorem single_founder_posterior_matches_spec :
    runInference singleFounderPed =
      some [("Harry", ⟨1/100, 3/100, 96/100, 329/10000, 9671/10000⟩)] := by
  simp [runInference, normalize, normalizeLoop, accumulate, enumHyps, powerset, fails_evidence,
    joint_probability, update, updatePerson, normalizePerson, initMarginal, lookupPerson,
    singleFounderPed, oneGeneFactor, twoGeneFactor, zeroGeneFactor, oneChildGene, twoChildGene,
    zeroChildGene, transmitProb, noTransmitProb, optMem, PROBS_gene, PROBS_trait, PROBS_mutation]
  norm_num

/-- The sum of one person's three gene bins. -/
def geneSum (m : Marginal) : ℚ := m.gene2 + m.gene1 + m.gene0

/-- The sum of one person's two trait bins. -/
def traitSum (m : Marginal) : ℚ := m.traitT + m.traitF

lemma updatePerson_eq (m : Marginal) (h : Hyp) (n : String) (p : ℚ) :
    updatePerson m h n p =
      ⟨m.gene2 + (if n ∉ h.one ∧ n ∈ h.two then p else 0),
       m.gene1 + (if n ∈ h.one then p else 0),
       m.gene0 + (if n ∉ h.one ∧ n ∉ h.two then p else 0),
       m.traitT + (if n ∈ h.ht then p else 0),
       m.traitF + (if n ∉ h.ht then p else 0)⟩ := by
  unfold updatePerson
  by_cases h1 : n ∈ h.one <;> by_cases h2 : n ∈ h.two <;> by_cases h3 : n ∈ h.ht <;>
    simp [h1, h2, h3]

lemma updatePerson_comm (m : Marginal) (h h' : Hyp) (n : String) (p p' : ℚ) :
    updatePerson (updatePerson m h n p) h' n p' =
      updatePerson (updatePerson m h' n p') h n p := by
  simp only [updatePerson_eq, Marginal.mk.injEq]
  refine ⟨by ring, by ring, by ring, by ring, by ring⟩

lemma geneSum_updatePerson (m : Marginal) (h : Hyp) (n : String) (p : ℚ) :
    geneSum (updatePerson m h n p) = geneSum m + p := by
  rw [updatePerson_eq]; unfold geneSum
  by_cases h1 : n ∈ h.one <;> by_cases h2 : n ∈ h.two <;> simp [h1, h2] <;> ring

lemma traitSum_updatePerson (m : Marginal) (h : Hyp) (n : String) (p : ℚ) :
    traitSum (updatePerson m h n p) = traitSum m + p := by
  rw [updatePerson_eq]; unfold traitSum
  by_cases h3 : n ∈ h.ht <;> simp [h3] <;> ring

lemma foldl_update_sums (L : List Hyp) (f : Hyp → ℚ) (probs : String → Marginal)
    (n : String) :
    geneSum ((L.foldl (fun pr h => update pr h (f h)) probs) n) =
        geneSum (probs n) + (L.map f).sum ∧
      traitSum ((L.foldl (fun pr h => update pr h (f h)) probs) n) =
        traitSum (probs n) + (L.map f).sum := by
  induction L generalizing probs with
  | nil => simp
  | cons hh t ih =>
    simp only [List.foldl_cons, List.map_cons, List.sum_cons]
    obtain ⟨ihg, iht⟩ := ih (update probs hh (f hh))
    constructor
    · rw [ihg]; simp only [update, geneSum_updatePerson]; ring
    · rw [iht]; simp only [update, traitSum_updatePerson]; ring

/-- C4: after accumulating every enumerated (hence evidence-consistent)
hypothesis, each person's three gene bins and two trait bins both sum to
the same grand total, the summed probability mass of all enumerated
hypotheses — the same value for every person and both variables. -/
theorem accumulated_totals_equal_evidence_mass (ped : Pedigree) (n : String) :
    geneSum (accumulate ped n) = ((enumHyps ped).map (joint_probability ped)).sum ∧
    traitSum (accumulate ped n) = ((enumHyps ped).map (joint_probability ped)).sum := by
  have h := foldl_update_sums (enumHyps ped) (joint_probability ped)
    (fun _ => initMarginal) n
  simpa [accumulate, geneSum, traitSum, initMarginal] using h

/-- C9: the accumulation is order-independent: folding `update` over any
permutation of the same list of (hypothesis, probability) pairs, from any
starting table, yields the same table, because each update is a commutative
addition into independent bins. -/
theorem accumulation_order_independent (L L' : List (Hyp × ℚ))
    (hperm : L.Perm L') (init : String → Marginal) :
    L.foldl (fun probs x => update probs x.1 x.2) init =
      L'.foldl (fun probs x => update probs x.1 x.2) init :=
  hperm.foldl_eq'
    (fun x _ y _ z => funext fun n => updatePerson_comm (z n) x.1 y.1 n x.2 y.2) init

/-- Witness for C9: a concrete two-element list and its reversal. -/
theorem accumulation_order_independent_witness :
    [(Hyp.mk ∅ ∅ ∅, (1 : ℚ)), (Hyp.mk {"a"} ∅ {"a"}, 2)].foldl
        (fun probs x => update probs x.1 x.2) (fun _ => initMarginal) =
      [(Hyp.mk {"a"} ∅ {"a"}, (2 : ℚ)), (Hyp.mk ∅ ∅ ∅, 1)].foldl
        (fun probs x => update probs x.1 x.2) (fun _ => initMarginal) :=
  accumulation_order_independent _ _ (List.Perm.swap _ _ _) _

lemma PROBS_gene_nonneg (g : Nat) : 0 ≤ PROBS_gene g := by
  unfold PROBS_gene
  rcases g with _ | _ | _ | g
  · norm_num
  · norm_num
  · norm_num
  · exact le_refl 0

lemma PROBS_trait_nonneg (g : Nat) (b : Bool) : 0 ≤ PROBS_trait g b := by
  unfold PROBS_trait
  rcases g with _ | _ | _ | g <;> cases b
  · norm_num
  · norm_num
  · norm_num
  · norm_num
  · norm_num
  · norm_num
  · exact le_refl 0
  · exact le_refl 0

lemma transmitProb_mem (one two : Finset String) (x : Option String) :
    0 ≤ transmitProb one two x ∧ transmitProb one two x ≤ 1 := by
  unfold transmitProb
  split_ifs <;> norm_num [PROBS_mutation]

lemma noTransmitProb_mem (one two : Finset String) (x : Option String) :
    0 ≤ noTransmitProb one two x ∧ noTransmitProb one two x ≤ 1 := by
  unfold noTransmitProb
  split_ifs <;> norm_num [PROBS_mutation]

lemma oneChildGene_nonneg (one two : Finset String) (mo fa : Option String) :
    0 ≤ oneChildGene one two mo fa := by
  unfold oneChildGene
  have hm := transmitProb_mem one two mo
  have hf := transmitProb_mem one two fa
  exact add_nonneg (mul_nonneg hm.1 (sub_nonneg.mpr hf.2))
    (mul_nonneg hf.1 (sub_nonneg.mpr hm.2))

lemma twoChildGene_nonneg (one two : Finset String) (mo fa : Option String) :
    0 ≤ twoChildGene one two mo fa :=
  mul_nonneg (transmitProb_mem one two mo).1 (transmitProb_mem one two fa).1

lemma zeroChildGene_nonneg (one two : Finset String) (mo fa : Option String) :
    0 ≤ zeroChildGene one two mo fa :=
  mul_nonneg (noTransmitProb_mem one two mo).1 (noTransmitProb_mem one two fa).1

lemma oneGeneFactor_nonneg (ped : Pedigree) (h : Hyp) (n : String) :
    0 ≤ oneGeneFactor ped h n := by
  unfold oneGeneFactor
  dsimp only
  split_ifs
  · exact mul_nonneg (PROBS_gene_nonneg 1) (PROBS_trait_nonneg 1 _)
  · exact mul_nonneg (oneChildGene_nonneg _ _ _ _) (PROBS_trait_nonneg 1 _)

lemma twoGeneFactor_nonneg (ped : Pedigree) (h : Hyp) (n : String) :
    0 ≤ twoGeneFactor ped h n := by
  unfold twoGeneFactor
  dsimp only
  split_ifs
  · exact mul_nonneg (PROBS_gene_nonneg 2) (PROBS_trait_nonneg 2 _)
  · exact mul_nonneg (twoChildGene_nonneg _ _ _ _) (PROBS_trait_nonneg 2 _)

lemma zeroGeneFactor_nonneg (ped : Pedigree) (h : Hyp) (n : String) :
    0 ≤ zeroGeneFactor ped h n := by
  unfold zeroGeneFactor
  dsimp only
  split_ifs
  · exact mul_nonneg (PROBS_gene_nonneg 0) (PROBS_trait_nonneg 0 _)
  · exact mul_nonneg (zeroChildGene_nonneg _ _ _ _) (PROBS_trait_nonneg 0 _)

lemma list_prod_nonneg {L : List ℚ} (hx : ∀ x ∈ L, 0 ≤ x) : 0 ≤ L.prod := by
  induction L with
  | nil => simp
  | cons a t ih =>
    simp only [List.prod_cons]
    exact mul_nonneg (hx a (by simp)) (ih fun x hx2 => hx x (by simp [hx2]))

lemma joint_probability_nonneg (ped : Pedigree) (h : Hyp) :
    0 ≤ joint_probability ped h := by
  unfold joint_probability
  refine mul_nonneg (mul_nonneg ?_ ?_) ?_
  · exact Finset.prod_nonneg fun i _ => oneGeneFactor_nonneg ped h i
  · exact Finset.prod_nonneg fun i _ => twoGeneFactor_nonneg ped h i
  · exact list_prod_nonneg fun x hx => by
      obtain ⟨q, _, rfl⟩ := List.mem_map.mp hx
      exact zeroGeneFactor_nonneg ped h q

lemma evidence_mass_pos (ped : Pedigree)
    (hpos : ∃ h ∈ enumHyps ped, 0 < joint_probability ped h) :
    0 < ((enumHyps ped).map (joint_probability ped)).sum := by
  obtain ⟨h, hmem, hph⟩ := hpos
  have hle : joint_probability ped h ≤ ((enumHyps ped).map (joint_probability ped)).sum := by
    apply List.single_le_sum
    · intro x hx
      obtain ⟨q, _, rfl⟩ := List.mem_map.mp hx
      exact joint_probability_nonneg ped q
    · exact List.mem_map.mpr ⟨h, hmem, rfl⟩
  exact lt_of_lt_of_le hph hle

lemma normalizePerson_of_ne_zero {m : Marginal} (hg : geneSum m ≠ 0)
    (ht : traitSum m ≠ 0) :
    normalizePerson m = some ⟨m.gene2 / geneSum m, m.gene1 / geneSum m,
      m.gene0 / geneSum m, m.traitT / traitSum m, m.traitF / traitSum m⟩ := by
  unfold normalizePerson
  unfold geneSum at hg
  unfold traitSum at ht
  rw [if_neg hg, if_neg ht]
  simp only [mul_one_div, geneSum, traitSum]

/-- C5: in a valid run (some enumerated hypothesis has positive mass),
normalization succeeds for every person: the gene bins then sum to exactly
1 (hence within 1e-9), the trait bins sum to exactly 1 (hence within
1e-9), and each normalized bin is the old bin divided by the old total, so
the relative proportions within each distribution are unchanged. -/
theorem normalize_yields_unit_sum_distributions (ped : Pedigree) (n : String)
    (hpos : ∃ h ∈ enumHyps ped, 0 < joint_probability ped h) :
    ∃ m', normalizePerson (accumulate ped n) = some m' ∧
      geneSum m' = 1 ∧ |geneSum m' - 1| ≤ 1/1000000000 ∧
      traitSum m' = 1 ∧ |traitSum m' - 1| ≤ 1/1000000000 ∧
      m'.gene2 = (accumulate ped n).gene2 / geneSum (accumulate ped n) ∧
      m'.gene1 = (accumulate ped n).gene1 / geneSum (accumulate ped n) ∧
      m'.gene0 = (accumulate ped n).gene0 / geneSum (accumulate ped n) ∧
      m'.traitT = (accumulate ped n).traitT / traitSum (accumulate ped n) ∧
      m'.traitF = (accumulate ped n).traitF / traitSum (accumulate ped n) := by
  have hmass := evidence_mass_pos ped hpos
  obtain ⟨hgs, hts⟩ := foldl_update_sums (enumHyps ped) (joint_probability ped)
    (fun _ => initMarginal) n
  have hgs' : geneSum (accumulate ped n) =
      ((enumHyps ped).map (joint_probability ped)).sum := by
    simpa [accumulate, geneSum, initMarginal] using hgs
  have hts' : traitSum (accumulate ped n) =
      ((enumHyps ped).map (joint_probability ped)).sum := by
    simpa [accumulate, traitSum, initMarginal] using hts
  have hg : geneSum (accumulate ped n) ≠ 0 := by rw [hgs']; exact ne_of_gt hmass
  have ht : traitSum (accumulate ped n) ≠ 0 := by rw [hts']; exact ne_of_gt hmass
  refine ⟨_, normalizePerson_of_ne_zero hg ht, ?_, ?_, ?_, ?_, rfl, rfl, rfl, rfl, rfl⟩
  · show _ / _ + _ / _ + _ / _ = (1 : ℚ)
    rw [div_add_div_same, div_add_div_same]
    exact div_self hg
  · show |_ / _ + _ / _ + _ / _ - (1 : ℚ)| ≤ 1/1000000000
    rw [div_add_div_same, div_add_div_same,
      show (accumulate ped n).gene2 + (accumulate ped n).gene1 + (accumulate ped n).gene0 =
        geneSum (accumulate ped n) from rfl, div_self hg]
    norm_num
  · show _ / _ + _ / _ = (1 : ℚ)
    rw [div_add_div_same]
    exact div_self ht
  · show |_ / _ + _ / _ - (1 : ℚ)| ≤ 1/1000000000
    rw [div_add_div_same,
      show (accumulate ped n).traitT + (accumulate ped n).traitF =
        traitSum (accumulate ped n) from rfl, div_self ht]
    norm_num

/-- Witness for C5 on the single-founder pedigree. -/
theorem normalize_yields_unit_sum_distributions_witness :
    ∃ m', normalizePerson (accumulate singleFounderPed "Harry") = some m' ∧
      geneSum m' = 1 ∧ |geneSum m' - 1| ≤ 1/1000000000 ∧
      traitSum m' = 1 ∧ |traitSum m' - 1| ≤ 1/1000000000 ∧
      m'.gene2 = (accumulate singleFounderPed "Harry").gene2 /
        geneSum (accumulate singleFounderPed "Harry") ∧
      m'.gene1 = (accumulate singleFounderPed "Harry").gene1 /
        geneSum (accumulate singleFounderPed "Harry") ∧
      m'.gene0 = (accumulate singleFounderPed "Harry").gene0 /
        geneSum (accumulate singleFounderPed "Harry") ∧
      m'.traitT = (accumulate singleFounderPed "Harry").traitT /
        traitSum (accumulate singleFounderPed "Harry") ∧
      m'.traitF = (accumulate singleFounderPed "Harry").traitF /
        traitSum (accumulate singleFounderPed "Harry") :=
  normalize_yields_unit_sum_distributions singleFounderPed "Harry"
    ⟨⟨∅, ∅, ∅⟩, by decide, by
      simp [joint_probability, singleFounderPed, zeroGeneFactor, lookupPerson,
        PROBS_gene, PROBS_trait]⟩

lemma oneGeneFactor_eq (ped : Pedigree) (h : Hyp) (n : String) (hn : n ∈ h.one) :
    oneGeneFactor ped h n =
      personGeneProb ped h.one h.two n * personTraitProb h.one h.two h.ht n := by
  have hgc : geneCount h.one h.two n = 1 := if_pos hn
  unfold oneGeneFactor personGeneProb personTraitProb
  dsimp only
  rw [hgc]
  split_ifs <;> rfl

lemma twoGeneFactor_eq (ped : Pedigree) (h : Hyp) (n : String) (hn1 : n ∉ h.one)
    (hn2 : n ∈ h.two) :
    twoGeneFactor ped h n =
      personGeneProb ped h.one h.two n * personTraitProb h.one h.two h.ht n := by
  have hgc : geneCount h.one h.two n = 2 := by
    unfold geneCount; rw [if_neg hn1, if_pos hn2]
  unfold twoGeneFactor personGeneProb personTraitProb
  dsimp only
  rw [hgc]
  split_ifs <;> rfl

lemma zeroGeneFactor_eq (ped : Pedigree) (h : Hyp) (n : String) (hn1 : n ∉ h.one)
    (hn2 : n ∉ h.two) :
    zeroGeneFactor ped h n =
      personGeneProb ped h.one h.two n * personTraitProb h.one h.two h.ht n := by
  have hgc : geneCount h.one h.two n = 0 := by
    unfold geneCount; rw [if_neg hn1, if_neg hn2]
  unfold zeroGeneFactor personGeneProb personTraitProb
  dsimp only
  rw [hgc]
  split_ifs <;> rfl

lemma prod_split (s one two : Finset String) (f : String → ℚ)
    (h1 : one ⊆ s) (h2 : two ⊆ s) (hd : Disjoint one two) :
    (∏ n ∈ s, f n) =
      (∏ n ∈ one, f n) * (∏ n ∈ two, f n) *
        ∏ n ∈ s.filter (fun q => q ∉ one ∧ q ∉ two), f n := by
  have hset : s = (one ∪ two) ∪ s.filter (fun q => q ∉ one ∧ q ∉ two) := by
    ext x
    simp only [Finset.mem_union, Finset.mem_filter]
    constructor
    · intro hx
      by_cases hx1 : x ∈ one
      · exact Or.inl (Or.inl hx1)
      by_cases hx2 : x ∈ two
      · exact Or.inl (Or.inr hx2)
      · exact Or.inr ⟨hx, hx1, hx2⟩
    · rintro ((hx | hx) | ⟨hx, -, -⟩)
      exacts [h1 hx, h2 hx, hx]
  have hdU : Disjoint (one ∪ two) (s.filter (fun q => q ∉ one ∧ q ∉ two)) := by
    rw [Finset.disjoint_left]
    intro a ha hafil
    obtain ⟨-, ha1, ha2⟩ := Finset.mem_filter.mp hafil
    rcases Finset.mem_union.mp ha with hx | hx
    · exact ha1 hx
    · exact ha2 hx
  conv_lhs => rw [hset]
  rw [Finset.prod_union hdU, Finset.prod_union hd]

lemma zeroList_prod_eq_filter_prod (ped : Pedigree) (h : Hyp)
    (hnd : (ped.map Prod.fst).Nodup) :
    (((ped.map Prod.fst).filter
        (fun q => decide (q ∉ h.one ∧ q ∉ h.two))).map (zeroGeneFactor ped h)).prod =
      ∏ n ∈ (ped.map Prod.fst).toFinset.filter (fun q => q ∉ h.one ∧ q ∉ h.two),
        zeroGeneFactor ped h n := by
  rw [← List.prod_toFinset _ (List.Nodup.filter _ hnd)]
  apply Finset.prod_congr ?_ (fun _ _ => rfl)
  ext x
  simp [List.mem_filter]

/-- C2: for a hypothesis whose gene sets are disjoint subsets of the
individuals (as every enumerated hypothesis is), `joint_probability` is
exactly the product over all individuals of the per-person gene-count
factor times the per-person trait factor; on the empty pedigree it
returns 1.  (Purity holds by construction: the embedding is a function of
the hypothesis, the tables and the pedigree, and mutates nothing.) -/
theorem joint_probability_is_product_over_people (ped : Pedigree) (h : Hyp)
    (hnd : (ped.map Prod.fst).Nodup)
    (h1 : h.one ⊆ (ped.map Prod.fst).toFinset)
    (h2 : h.two ⊆ (ped.map Prod.fst).toFinset)
    (hd : Disjoint h.one h.two) :
    (joint_probability ped h =
      ∏ n ∈ (ped.map Prod.fst).toFinset,
        personGeneProb ped h.one h.two n * personTraitProb h.one h.two h.ht n) ∧
    joint_probability [] ⟨∅, ∅, ∅⟩ = 1 := by
  constructor
  · unfold joint_probability
    rw [zeroList_prod_eq_filter_prod ped h hnd,
      prod_split _ h.one h.two _ h1 h2 hd]
    congr 1
    congr 1
    · exact Finset.prod_congr rfl fun n hn => oneGeneFactor_eq ped h n hn
    · exact Finset.prod_congr rfl fun n hn =>
        twoGeneFactor_eq ped h n (Finset.disjoint_right.mp hd hn) hn
    · exact Finset.prod_congr rfl fun n hn => by
        obtain ⟨-, hn1, hn2⟩ := Finset.mem_filter.mp hn
        exact zeroGeneFactor_eq ped h n hn1 hn2
  · simp [joint_probability]

/-- Witness for C2 on a three-person pedigree (two founders, one child). -/
theorem joint_probability_is_product_over_people_witness :
    (joint_probability
        [("M", ⟨none, none, none⟩), ("F", ⟨none, none, none⟩),
         ("C", ⟨some "M", some "F", some true⟩)]
        ⟨{"M"}, {"C"}, {"C"}⟩ =
      ∏ n ∈ (([("M", (⟨none, none, none⟩ : Person)), ("F", ⟨none, none, none⟩),
         ("C", ⟨some "M", some "F", some true⟩)].map Prod.fst)).toFinset,
        personGeneProb
          [("M", ⟨none, none, none⟩), ("F", ⟨none, none, none⟩),
           ("C", ⟨some "M", some "F", some true⟩)] {"M"} {"C"} n *
          personTraitProb {"M"} {"C"} {"C"} n) ∧
    joint_probability [] ⟨∅, ∅, ∅⟩ = 1 :=
  joint_probability_is_product_over_people _ ⟨{"M"}, {"C"}, {"C"}⟩
    (by decide) (by decide) (by decide) (Finset.disjoint_left.mpr (by decide))

lemma mem_powerset_iff (l : List String) (s : Finset String) :
    s ∈ powerset l ↔ s ⊆ l.toFinset := by
  unfold powerset
  rw [List.mem_map]
  constructor
  · rintro ⟨t, htmem, rfl⟩
    intro x hx
    rw [List.mem_toFinset] at hx ⊢
    exact (List.mem_sublists.mp htmem).subset hx
  · intro hs
    refine ⟨l.filter (fun x => decide (x ∈ s)), List.mem_sublists.mpr (List.filter_sublist l), ?_⟩
    ext x
    simp only [List.mem_toFinset, List.mem_filter, decide_eq_true_eq]
    constructor
    · rintro ⟨-, hx⟩
      exact hx
    · intro hx
      exact ⟨by simpa using hs hx, hx⟩

lemma sublist_eq_filter {l s : List String} (hs : List.Sublist s l) :
    l.Nodup → s = l.filter (fun x => decide (x ∈ s)) := by
  induction hs with
  | slnil => intro _; rfl
  | @cons s₁ l₂ a hsub ih =>
    intro hl
    have ha : a ∉ s₁ := fun hmem => (List.nodup_cons.mp hl).1 (hsub.subset hmem)
    have hcfalse : (decide (a ∈ s₁)) = false := by simp [ha]
    rw [List.filter_cons, hcfalse]
    simp only [Bool.false_eq_true, if_false]
    exact ih (List.nodup_cons.mp hl).2
  | @cons₂ s' l' a hsub ih =>
    intro hl
    have hanotl : a ∉ l' := (List.nodup_cons.mp hl).1
    have hcong : l'.filter (fun x => decide (x ∈ a :: s')) =
        l'.filter (fun x => decide (x ∈ s')) := by
      apply List.filter_congr
      intro x hx
      have hxa : x ≠ a := fun he => hanotl (he ▸ hx)
      simp [hxa]
    rw [List.filter_cons]
    have hctrue : (decide (a ∈ a :: s')) = true := by simp
    rw [hctrue, if_pos rfl, hcong, ← ih (List.nodup_cons.mp hl).2]

lemma nodup_powerset {l : List String} (hl : l.Nodup) : (powerset l).Nodup := by
  unfold powerset
  rw [List.nodup_map_iff_inj_on (List.nodup_sublists.mpr hl)]
  intro x hx y hy hxy
  rw [sublist_eq_filter (List.mem_sublists.mp hx) hl,
    sublist_eq_filter (List.mem_sublists.mp hy) hl]
  exact List.filter_congr fun z _ =>
    decide_eq_decide.mpr (by rw [← List.mem_toFinset, hxy, List.mem_toFinset])

lemma lookup_eq_of_mem : ∀ {ped : Pedigree} {n : String} {pr : Person},
    (ped.map Prod.fst).Nodup → (n, pr) ∈ ped → ped.lookup n = some pr := by
  intro ped
  induction ped with
  | nil => intro n pr _ hmem; cases hmem
  | cons hd tl ih =>
    intro n pr hnd hmem
    obtain ⟨m, q⟩ := hd
    rcases List.mem_cons.mp hmem with he | htl
    · obtain ⟨rfl, rfl⟩ := Prod.mk.injEq .. ▸ he
      simp [List.lookup]
    · have hne : n ≠ m := by
        intro he2
        subst he2
        have hmm : n ∈ tl.map Prod.fst := List.mem_map.mpr ⟨(n, pr), htl, rfl⟩
        exact (List.nodup_cons.mp (by simpa using hnd)).1 hmm
      have hbeq : (n == m) = false := beq_eq_false_iff_ne.mpr hne
      simp only [List.lookup, hbeq]
      exact ih (List.nodup_cons.mp (by simpa using hnd)).2 htl

lemma lookupPerson_eq_of_mem {ped : Pedigree} {p : String × Person}
    (hnd : (ped.map Prod.fst).Nodup) (hp : p ∈ ped) :
    lookupPerson ped p.1 = p.2 := by
  unfold lookupPerson
  rw [lookup_eq_of_mem hnd (by simpa using hp)]
  rfl

lemma fails_evidence_false_iff (ped : Pedigree)
    (hnd : (ped.map Prod.fst).Nodup) (ht : Finset String) :
    fails_evidence ped ht = false ↔
      ∀ p ∈ ped, ∀ b, p.2.trait = some b → (p.1 ∈ ht ↔ b = true) := by
  unfold fails_evidence
  rw [List.any_eq_false]
  constructor
  · intro hall p hp b hb
    have hmem : p.1 ∈ ped.map Prod.fst := List.mem_map.mpr ⟨p, hp, rfl⟩
    have hone := hall p.1 hmem
    rw [lookupPerson_eq_of_mem hnd hp, hb] at hone
    cases b <;> by_cases hin : p.1 ∈ ht <;> simp_all
  · intro hall n hn
    obtain ⟨p, hp, rfl⟩ := List.mem_map.mp hn
    rw [lookupPerson_eq_of_mem hnd hp]
    cases htr : p.2.trait with
    | none => simp
    | some b =>
      have hiff := hall p hp b htr
      cases b <;> by_cases hin : p.1 ∈ ht <;> simp_all

lemma mem_inner_flatMap_ht {names : List String} {ht : Finset String} {h : Hyp}
    (hmem : h ∈ (powerset names).flatMap fun one =>
      (powerset (names.filter (fun q => decide (q ∉ one)))).map fun two =>
        (⟨one, two, ht⟩ : Hyp)) :
    h.ht = ht := by
  obtain ⟨one, -, hmem2⟩ := List.mem_flatMap.mp hmem
  obtain ⟨two, -, rfl⟩ := List.mem_map.mp hmem2
  rfl

lemma nodup_enumHyps (ped : Pedigree) (hnd : (ped.map Prod.fst).Nodup) :
    (enumHyps ped).Nodup := by
  unfold enumHyps
  apply List.nodup_flatMap.mpr
  constructor
  · intro ht _
    apply List.nodup_flatMap.mpr
    constructor
    · intro one _
      apply List.Nodup.map
      · intro t1 t2 he
        simpa using congrArg Hyp.two he
      · exact nodup_powerset (List.Nodup.filter _ hnd)
    · apply List.Pairwise.imp ?_ (nodup_powerset hnd)
      intro a b hab x hxa hxb
      obtain ⟨ta, -, rfl⟩ := List.mem_map.mp hxa
      obtain ⟨tb, -, heq⟩ := List.mem_map.mp hxb
      exact hab (by simpa using congrArg Hyp.one heq.symm)
  · apply List.Pairwise.imp ?_ ((nodup_powerset hnd).filter _)
    intro a b hab x hxa hxb
    exact hab ((mem_inner_flatMap_ht hxa).symm.trans (mem_inner_flatMap_ht hxb))

lemma mem_enumHyps_iff (ped : Pedigree) (h : Hyp) :
    h ∈ enumHyps ped ↔
      fails_evidence ped h.ht = false ∧
      h.ht ⊆ (ped.map Prod.fst).toFinset ∧
      h.one ⊆ (ped.map Prod.fst).toFinset ∧
      h.two ⊆ (ped.map Prod.fst).toFinset ∧
      Disjoint h.one h.two := by
  unfold enumHyps
  constructor
  · intro hmem
    obtain ⟨ht, hhtmem, hmem2⟩ := List.mem_flatMap.mp hmem
    obtain ⟨one, honemem, hmem3⟩ := List.mem_flatMap.mp hmem2
    obtain ⟨two, htwomem, rfl⟩ := List.mem_map.mp hmem3
    obtain ⟨hhtpow, hhtcons⟩ := List.mem_filter.mp hhtmem
    have h2 := (mem_powerset_iff _ _).mp htwomem
    refine ⟨by simpa using hhtcons, (mem_powerset_iff _ _).mp hhtpow,
      (mem_powerset_iff _ _).mp honemem, ?_, ?_⟩
    · intro x hx
      have hx2 := h2 hx
      rw [List.mem_toFinset, List.mem_filter] at hx2
      exact List.mem_toFinset.mpr hx2.1
    · rw [Finset.disjoint_right]
      intro x hx
      have hx2 := h2 hx
      rw [List.mem_toFinset, List.mem_filter, decide_eq_true_eq] at hx2
      exact hx2.2
  · rintro ⟨hcons, hht, hone, htwo, hd⟩
    refine List.mem_flatMap.mpr ⟨h.ht,
      List.mem_filter.mpr ⟨(mem_powerset_iff _ _).mpr hht, by simp [hcons]⟩, ?_⟩
    refine List.mem_flatMap.mpr ⟨h.one, (mem_powerset_iff _ _).mpr hone, ?_⟩
    refine List.mem_map.mpr ⟨h.two, (mem_powerset_iff _ _).mpr ?_, rfl⟩
    intro x hx
    rw [List.mem_toFinset, List.mem_filter, decide_eq_true_eq]
    exact ⟨List.mem_toFinset.mp (htwo hx), Finset.disjoint_right.mp hd hx⟩

/-- C3: the enumeration visits a hypothesis exactly once when its
`have_trait` set agrees with every observed trait and its gene sets are a
disjoint pair of subsets of the individuals — with no evidence condition on
the gene sets — and never visits anything else; the empty pedigree yields
exactly the single empty hypothesis. -/
theorem enumeration_visits_each_hypothesis_once (ped : Pedigree)
    (hnd : (ped.map Prod.fst).Nodup) (h : Hyp) :
    (enumHyps ped).count h ≤ 1 ∧
    (h ∈ enumHyps ped ↔
      ((∀ p ∈ ped, ∀ b, p.2.trait = some b → (p.1 ∈ h.ht ↔ b = true)) ∧
        h.ht ⊆ (ped.map Prod.fst).toFinset ∧
        h.one ⊆ (ped.map Prod.fst).toFinset ∧
        h.two ⊆ (ped.map Prod.fst).toFinset ∧
        Disjoint h.one h.two)) ∧
    enumHyps [] = [⟨∅, ∅, ∅⟩] := by
  refine ⟨List.nodup_iff_count_le_one.mp (nodup_enumHyps ped hnd) h, ?_, rfl⟩
  rw [mem_enumHyps_iff ped h, fails_evidence_false_iff ped hnd h.ht]

/-- Witness for C3 on the three-person pedigree with observed child trait. -/
theorem enumeration_visits_each_hypothesis_once_witness :
    ((enumHyps [("M", ⟨none, none, none⟩), ("F", ⟨none, none, none⟩),
        ("C", ⟨some "M", some "F", some true⟩)]).count ⟨{"M"}, {"C"}, {"C"}⟩ ≤ 1 ∧
    ((⟨{"M"}, {"C"}, {"C"}⟩ : Hyp) ∈ enumHyps [("M", ⟨none, none, none⟩),
        ("F", ⟨none, none, none⟩), ("C", ⟨some "M", some "F", some true⟩)] ↔
      ((∀ p ∈ [("M", (⟨none, none, none⟩ : Person)), ("F", ⟨none, none, none⟩),
          ("C", ⟨some "M", some "F", some true⟩)], ∀ b, p.2.trait = some b →
            (p.1 ∈ ({"C"} : Finset String) ↔ b = true)) ∧
        ({"C"} : Finset String) ⊆ (([("M", (⟨none, none, none⟩ : Person)),
          ("F", ⟨none, none, none⟩),
          ("C", ⟨some "M", some "F", some true⟩)].map Prod.fst)).toFinset ∧
        ({"M"} : Finset String) ⊆ (([("M", (⟨none, none, none⟩ : Person)),
          ("F", ⟨none, none, none⟩),
          ("C", ⟨some "M", some "F", some true⟩)].map Prod.fst)).toFinset ∧
        ({"C"} : Finset String) ⊆ (([("M", (⟨none, none, none⟩ : Person)),
          ("F", ⟨none, none, none⟩),
          ("C", ⟨some "M", some "F", some true⟩)].map Prod.fst)).toFinset ∧
        Disjoint ({"M"} : Finset String) ({"C"} : Finset String))) ∧
    enumHyps [] = [⟨∅, ∅, ∅⟩]) :=
  enumeration_visits_each_hypothesis_once _ (by decide) ⟨{"M"}, {"C"}, {"C"}⟩

end Heredity
